import Mathlib

/-!
Formal verification of the PROM (parametric reduced-order model) engine of
`src/palace/models/romoperator.cpp`.

The embedding is a shallow one over exact real/complex arithmetic:
 - distributed full-order real vectors become `Fin N → ℝ`, and the global
   (all-reduce) inner product becomes the full sum `dotg`;
 - the dense replicated reduced matrices/vectors become `Matrix (Fin n) (Fin n) ℂ`
   and `Fin n → ℂ`;
 - the external dense linear-algebra provider (Eigen) is modelled by exact
   linear algebra: a pivoted-LU solve of an invertible system becomes
   multiplication by the matrix inverse, and the SVD of the triangular factor
   is an oracle input (singular values and right singular vectors);
 - fallible searches return `Option` (`none` models the fatal MFEM_VERIFY path).
-/

namespace PalaceRom

/-! ## RomOperator state flags (romoperator.cpp:149-213, 297-331)

`has_A2` and `has_RHS2` are the two booleans tracked by `RomOperator`.
Both are set to `true` in the constructor (line 153).  `SolveHDM` (lines
191-209) resets `has_A2` from the collaborator answer on every call, while
`has_RHS2` is reassigned from `GetExcitationVector2`'s return value only
when it is still `true`. -/

structure RomFlags where
  has_A2 : Bool
  has_RHS2 : Bool
deriving DecidableEq, Repr

/-- Flags as set by the constructor `RomOperator::RomOperator` (line 153:
`has_A2 = has_RHS2 = true;`). -/
def initFlags : RomFlags := ⟨true, true⟩

/-- One `SolveHDM` call, restricted to its effect on the flags.  The inputs
are the collaborator's answers: `a2nonnull` models `A2 != nullptr` and
`rhs2ok` models the return value of `GetExcitationVector2`.  The second
component of the result records whether `GetExcitationVector2` was called at
all (it is called only inside `if (has_RHS2)`, lines 202-209). -/
def solveHDMStep (s : RomFlags) (a2nonnull rhs2ok : Bool) : RomFlags × Bool :=
  ({ has_A2 := a2nonnull,
     has_RHS2 := if s.has_RHS2 then rhs2ok else s.has_RHS2 }, s.has_RHS2)

/-- A sequence of `SolveHDM` calls, each with its pair of collaborator
answers, acting on the flags. -/
def runHDM (s : RomFlags) (calls : List (Bool × Bool)) : RomFlags :=
  calls.foldl (fun st c => (solveHDMStep st c.1 c.2).1) s

/-- Whether `SolvePROM` calls `GetExcitationVector2` (line 319-323: only
inside `if (has_RHS2)`). -/
def solvePROMCallsRHS2 (s : RomFlags) : Bool := s.has_RHS2

/-! ## Reduced system assembly and solve (RomOperator::SolvePROM, lines 297-361) -/

/-- Reduced right-hand side `RHSr(ω)`, romoperator.cpp:319-331: the
parameter-dependent part `Vᴴ RHS2(ω)` (here the already-projected vector
`RHS2r`) when `has_RHS2`, else zero (`RHSr.setZero()`), plus `iω RHS1r`
when `RHS1.Size()` is nonzero. -/
def assembleRHSr (n : ℕ) (hasRHS2 hasRHS1 : Bool) (RHS2r RHS1r : Fin n → ℂ)
    (ω : ℝ) : Fin n → ℂ :=
  (if hasRHS2 then RHS2r else 0) +
    (if hasRHS1 then (Complex.I * (ω : ℂ)) • RHS1r else 0)

/-- Reduced system matrix `Ar(ω)`, romoperator.cpp:303-317: the projected
parameter-dependent term `Vᴴ A2(ω) V` (here the already-projected `A2r`)
when `has_A2`, else zero (`Ar.setZero()`), plus `Kr`, plus `iω Cr` when the
damping matrix is present (`Cr.rows() > 0`), plus `-ω² Mr`. -/
def assembleAr (n : ℕ) (hasA2 hasCr : Bool)
    (A2r Kr Cr Mr : Matrix (Fin n) (Fin n) ℂ) (ω : ℝ) : Matrix (Fin n) (Fin n) ℂ :=
  (if hasA2 then A2r else 0) + Kr +
    (if hasCr then (Complex.I * (ω : ℂ)) • Cr else 0) +
    (-((ω : ℂ) * (ω : ℂ))) • Mr

/-- The reduced solution `RHSr = Ar.partialPivLu().solve(RHSr)`
(romoperator.cpp:345).  The exact-arithmetic semantics of a pivoted LU
solve of an invertible dense system is multiplication by the inverse. -/
noncomputable def solvePROMy (n : ℕ) (hasA2 hasCr hasRHS2 hasRHS1 : Bool)
    (A2r Kr Cr Mr : Matrix (Fin n) (Fin n) ℂ) (RHS2r RHS1r : Fin n → ℂ)
    (ω : ℝ) : Fin n → ℂ :=
  (assembleAr n hasA2 hasCr A2r Kr Cr Mr ω)⁻¹.mulVec
    (assembleRHSr n hasRHS2 hasRHS1 RHS2r RHS1r ω)

/-- The basis-recombination loop of `SolvePROM` (romoperator.cpp:347-360):
starting from `u = 0`, basis columns are consumed two at a time with
`AXPBYPCZ(α, x, β, y, 1, z)` (that is, `z += α x + β y`), with a single
`AXPY` tail when the dimension is odd.  `g` selects the real or imaginary
part of each reduced coefficient, exactly like the two calls per pair in
the source. -/
def expandLoop (N : ℕ) (g : ℂ → ℝ) (acc : Fin N → ℝ) :
    List (ℂ × (Fin N → ℝ)) → (Fin N → ℝ)
  | [] => acc
  | [p] => acc + g p.1 • p.2
  | p :: q :: rest => expandLoop N g (acc + g p.1 • p.2 + g q.1 • q.2) rest

/-! ## Claim C10 -/

/-- Helper: once `has_RHS2` is `false`, no sequence of further `SolveHDM`
calls can make it `true` again. -/
lemma runHDM_has_RHS2_false (t : List (Bool × Bool)) :
    ∀ s : RomFlags, s.has_RHS2 = false → (runHDM s t).has_RHS2 = false := by
  induction t with
  | nil => intro s hs; simpa [runHDM] using hs
  | cons c t ih =>
      intro s hs
      have hstep : ((solveHDMStep s c.1 c.2).1).has_RHS2 = false := by
        simp [solveHDMStep, hs]
      simpa [runHDM, List.foldl_cons] using ih _ hstep

/-- Claim C10: `has_RHS2` is monotone non-increasing over the RomOperator's
lifetime.  It is initialized to `true` at construction; once a `SolveHDM`
call leaves it `false` it remains `false` after any further sequence of
`SolveHDM` calls; a subsequent `SolveHDM` does not call the collaborator
`GetExcitationVector2` again; a subsequent `SolvePROM` neither calls the
collaborator nor contributes a `RHS2` term (the assembled reduced RHS is
exactly the `iω RHS1r` part); by contrast `has_A2` is reset from the
collaborator's answer on every `SolveHDM` call. -/
theorem c10_has_RHS2_monotone :
    (initFlags.has_A2 = true ∧ initFlags.has_RHS2 = true) ∧
    (∀ t1 t2 : List (Bool × Bool), (runHDM initFlags t1).has_RHS2 = false →
      (runHDM initFlags (t1 ++ t2)).has_RHS2 = false) ∧
    (∀ (s : RomFlags) (a b : Bool), s.has_RHS2 = false →
      (solveHDMStep s a b).2 = false ∧ solvePROMCallsRHS2 s = false) ∧
    (∀ (s : RomFlags) (a b : Bool), ((solveHDMStep s a b).1).has_A2 = a) ∧
    (∀ (n : ℕ) (hasRHS1 : Bool) (RHS2r RHS1r : Fin n → ℂ) (ω : ℝ),
      assembleRHSr n false hasRHS1 RHS2r RHS1r ω =
        (if hasRHS1 then (Complex.I * (ω : ℂ)) • RHS1r else 0)) := by
  refine ⟨⟨rfl, rfl⟩, ?_, ?_, ?_, ?_⟩
  · intro t1 t2 h
    rw [runHDM, List.foldl_append]
    exact runHDM_has_RHS2_false t2 _ h
  · intro s a b hs
    exact ⟨by simpa [solveHDMStep] using hs, by simpa [solvePROMCallsRHS2] using hs⟩
  · intro s a b; rfl
  · intro n hasRHS1 RHS2r RHS1r ω
    simp [assembleRHSr]

/-- Witness for C10 at a concrete trace: after a `SolveHDM` call whose
collaborator answers `(true, false)`, the flag is `false` and stays `false`
after one more call answering `(true, true)`. -/
theorem c10_has_RHS2_monotone_witness :
    (runHDM initFlags ([(true, false)] ++ [(true, true)])).has_RHS2 = false :=
  c10_has_RHS2_monotone.2.1 [(true, false)] [(true, true)] (by decide)

/-! ## Full-order vectors and the global inner product (§4.1)

A distributed full-order real vector is modelled by the whole assembled
vector; the global sum-reduced dot product (`linalg::Dot` local part plus
`Mpi::GlobalSum`) is then the full sum. -/

abbrev Vec (N : ℕ) := Fin N → ℝ

/-- Global inner product of two full-order real vectors. -/
def dotg {N : ℕ} (x y : Vec N) : ℝ := ∑ i, x i * y i

/-! ## Incremental operator projection (ProjectMatInternal, lines 47-88) -/

/-- One freshly computed entry of `Vᴴ A V`: since the basis columns are
real, the entry is assembled from separate real dot products against the
real and imaginary parts of the applied operator (lines 63-75), each part
present only when the corresponding flag (`A.HasReal()` / `A.HasImag()`)
holds. -/
def projEntry (N : ℕ) (hasR hasI : Bool) (Are Aim : Matrix (Fin N) (Fin N) ℝ)
    {n : ℕ} (V : Fin n → Vec N) (i j : Fin n) : ℂ :=
  ⟨if hasR then dotg (V i) (Are.mulVec (V j)) else 0,
   if hasI then dotg (V i) (Aim.mulVec (V j)) else 0⟩

/-- `ProjectMatInternal`: update `Ar = Vᴴ A V` from basis dimension `n0` to
`n`.  Columns `j ∈ [n0, n)` are recomputed for every row (lines 57-77); the
lower-left cross block (rows `i ∈ [n0, n)` against old columns `j < n0`) is
filled by copying the transpose of the freshly computed upper-right block
(lines 81-87); the leading `n0 × n0` block keeps the previously stored
values. -/
def projectMatInternal (N : ℕ) (hasR hasI : Bool)
    (Are Aim : Matrix (Fin N) (Fin N) ℝ) {n : ℕ} (V : Fin n → Vec N)
    (prev : Matrix (Fin n) (Fin n) ℂ) (n0 : ℕ) : Matrix (Fin n) (Fin n) ℂ :=
  Matrix.of fun i j =>
    if n0 ≤ (j : ℕ) then projEntry N hasR hasI Are Aim V i j
    else if n0 ≤ (i : ℕ) then projEntry N hasR hasI Are Aim V j i
    else prev i j

/-- For a symmetric matrix the bilinear form `x ↦ y ↦ x ⋅ (M y)` is
symmetric. -/
lemma dotg_mulVec_symm {N : ℕ} (M : Matrix (Fin N) (Fin N) ℝ) (h : M.transpose = M)
    (x y : Vec N) : dotg x (M.mulVec y) = dotg y (M.mulVec x) := by
  have hs : ∀ i j, M i j = M j i := by
    intro i j
    have := congrFun (congrFun h i) j
    simpa [Matrix.transpose_apply] using this.symm
  simp only [dotg, Matrix.mulVec, Matrix.dotProduct]
  calc ∑ i, x i * ∑ j, M i j * y j
      = ∑ i, ∑ j, x i * (M i j * y j) := by
        refine Finset.sum_congr rfl fun i _ => ?_
        rw [Finset.mul_sum]
    _ = ∑ j, ∑ i, x i * (M i j * y j) := Finset.sum_comm
    _ = ∑ j, y j * ∑ i, M j i * x i := by
        refine Finset.sum_congr rfl fun j _ => ?_
        rw [Finset.mul_sum]
        refine Finset.sum_congr rfl fun i _ => ?_
        rw [hs i j]; ring

/-- The symmetric cross-block copy is exact: swapping the two basis indices
of a fresh entry leaves it unchanged when both operator parts are
symmetric. -/
lemma projEntry_symm {N n : ℕ} (hasR hasI : Bool)
    (Are Aim : Matrix (Fin N) (Fin N) ℝ) (hRe : Are.transpose = Are) (hIm : Aim.transpose = Aim)
    (V : Fin n → Vec N) (i j : Fin n) :
    projEntry N hasR hasI Are Aim V j i = projEntry N hasR hasI Are Aim V i j := by
  refine Complex.ext ?_ ?_
  · show (if hasR then dotg (V j) (Are.mulVec (V i)) else 0)
        = (if hasR then dotg (V i) (Are.mulVec (V j)) else 0)
    cases hasR
    · rfl
    · simpa using dotg_mulVec_symm Are hRe (V j) (V i)
  · show (if hasI then dotg (V j) (Aim.mulVec (V i)) else 0)
        = (if hasI then dotg (V i) (Aim.mulVec (V j)) else 0)
    cases hasI
    · rfl
    · simpa using dotg_mulVec_symm Aim hIm (V j) (V i)

/-- Claim C4: for a symmetric full-order operator, incremental projection
from `n0` to `n` — starting from a matrix whose leading `n0 × n0` block
holds the values computed for the unchanged basis vectors — produces
exactly the same reduced matrix as one full recomputation from `0`
(whatever stale matrix `prev0` the full recomputation starts from); in
particular the transpose-copy of the upper-right block into the lower-left
cross block is correct under the symmetry hypothesis. -/
theorem c4_projection_consistency {N n : ℕ} (hasR hasI : Bool)
    (Are Aim : Matrix (Fin N) (Fin N) ℝ) (hRe : Are.transpose = Are) (hIm : Aim.transpose = Aim)
    (V : Fin n → Vec N) (prev prev0 : Matrix (Fin n) (Fin n) ℂ) (n0 : ℕ)
    (_hn0 : n0 < n)
    (hprev : ∀ i j : Fin n, (i : ℕ) < n0 → (j : ℕ) < n0 →
      prev i j = projEntry N hasR hasI Are Aim V i j) :
    projectMatInternal N hasR hasI Are Aim V prev n0 =
      projectMatInternal N hasR hasI Are Aim V prev0 0 := by
  ext i j
  have hrhs : projectMatInternal N hasR hasI Are Aim V prev0 0 i j
      = projEntry N hasR hasI Are Aim V i j := by
    simp [projectMatInternal]
  rw [hrhs]
  simp only [projectMatInternal, Matrix.of_apply]
  by_cases hj : n0 ≤ (j : ℕ)
  · rw [if_pos hj]
  · rw [if_neg hj]
    by_cases hi : n0 ≤ (i : ℕ)
    · rw [if_pos hi]
      exact projEntry_symm hasR hasI Are Aim hRe hIm V i j
    · rw [if_neg hi]
      exact hprev i j (Nat.not_le.mp hi) (Nat.not_le.mp hj)

/-- Witness for C4 at a concrete input: a 1-dimensional full-order space,
identity real part, zero imaginary part, a basis of two columns, update
from `n0 = 1` to `n = 2` starting from the correctly filled leading block. -/
theorem c4_projection_consistency_witness :
    projectMatInternal 1 true false 1 0 (fun j : Fin 2 => fun _ => (j : ℝ) + 1)
        (Matrix.of fun i j =>
          projEntry 1 true false 1 0 (fun j : Fin 2 => fun _ => (j : ℝ) + 1) i j) 1 =
      projectMatInternal 1 true false 1 0 (fun j : Fin 2 => fun _ => (j : ℝ) + 1)
        0 0 :=
  c4_projection_consistency true false 1 0 (by simp) (by simp)
    (fun j : Fin 2 => fun _ => (j : ℝ) + 1) _ _ 1 (by norm_num)
    (fun i j _ _ => rfl)

/-! ## Claim C5: the reduced solve and the pairwise expansion loop -/

/-- The full-order expansion of `SolvePROM` (lines 347-360): the real and
imaginary accumulators after the pairwise recombination loop, over the
basis columns `j = 0, …, dim_V - 1` in order. -/
def solvePROMu (N : ℕ) {n : ℕ} (V : Fin n → Vec N) (y : Fin n → ℂ) :
    Vec N × Vec N :=
  (expandLoop N Complex.re 0 (List.ofFn fun j => (y j, V j)),
   expandLoop N Complex.im 0 (List.ofFn fun j => (y j, V j)))

/-- The two-columns-per-pass loop (with its single-column tail) accumulates
exactly the naive one-column-at-a-time linear combination. -/
lemma expandLoop_eq_sum (N : ℕ) (g : ℂ → ℝ) :
    ∀ (L : List (ℂ × (Fin N → ℝ))) (acc : Fin N → ℝ),
      expandLoop N g acc L = acc + (L.map fun p => g p.1 • p.2).sum
  | [], acc => by simp [expandLoop]
  | [p], acc => by simp [expandLoop]
  | p :: q :: rest, acc => by
      rw [expandLoop, expandLoop_eq_sum N g rest _]
      simp only [List.map_cons, List.sum_cons]
      abel

/-- Claim C5: `SolvePROM(ω)` solves the dense complex system
`Ar(ω) y = RHSr(ω)` (the LU solve is exact whenever `Ar(ω)` is invertible),
and the full-order result of the pairwise expansion loop — real and
imaginary parts — is exactly the naive linear combination
`u = Σ_j y_j · V[j]`. -/
theorem c5_solvePROM_lu_and_expansion {n N : ℕ} (hasA2 hasCr hasRHS2 hasRHS1 : Bool)
    (A2r Kr Cr Mr : Matrix (Fin n) (Fin n) ℂ) (RHS2r RHS1r : Fin n → ℂ) (ω : ℝ)
    (V : Fin n → Vec N)
    (hdet : IsUnit (assembleAr n hasA2 hasCr A2r Kr Cr Mr ω).det) :
    (assembleAr n hasA2 hasCr A2r Kr Cr Mr ω).mulVec
        (solvePROMy n hasA2 hasCr hasRHS2 hasRHS1 A2r Kr Cr Mr RHS2r RHS1r ω) =
      assembleRHSr n hasRHS2 hasRHS1 RHS2r RHS1r ω ∧
    (solvePROMu N V (solvePROMy n hasA2 hasCr hasRHS2 hasRHS1 A2r Kr Cr Mr
        RHS2r RHS1r ω)).1 =
      ∑ j, ((solvePROMy n hasA2 hasCr hasRHS2 hasRHS1 A2r Kr Cr Mr
        RHS2r RHS1r ω) j).re • V j ∧
    (solvePROMu N V (solvePROMy n hasA2 hasCr hasRHS2 hasRHS1 A2r Kr Cr Mr
        RHS2r RHS1r ω)).2 =
      ∑ j, ((solvePROMy n hasA2 hasCr hasRHS2 hasRHS1 A2r Kr Cr Mr
        RHS2r RHS1r ω) j).im • V j := by
  set y := solvePROMy n hasA2 hasCr hasRHS2 hasRHS1 A2r Kr Cr Mr RHS2r RHS1r ω with hy
  refine ⟨?_, ?_, ?_⟩
  · rw [hy, solvePROMy, Matrix.mulVec_mulVec, Matrix.mul_nonsing_inv _ hdet,
      Matrix.one_mulVec]
  · show expandLoop N Complex.re 0 (List.ofFn fun j => (y j, V j)) = _
    rw [expandLoop_eq_sum, List.map_ofFn, List.sum_ofFn, zero_add]
    rfl
  · show expandLoop N Complex.im 0 (List.ofFn fun j => (y j, V j)) = _
    rw [expandLoop_eq_sum, List.map_ofFn, List.sum_ofFn, zero_add]
    rfl

/-- Witness for C5 at a concrete reduced system (`n = 1`, `Ar = Kr = I`,
`RHSr = iω RHS1r`). -/
theorem c5_solvePROM_lu_and_expansion_witness :
    (assembleAr 1 false false 0 1 0 0 1).mulVec
        (solvePROMy 1 false false false true 0 1 0 0 0 (fun _ => 1) 1) =
      assembleRHSr 1 false true 0 (fun _ => 1) 1 :=
  (c5_solvePROM_lu_and_expansion false false false true 0 1 0 0 0 (fun _ => 1) 1
    (fun _ => (fun _ => 1 : Vec 1))
    (by simp [assembleAr])).1

/-! ## Claim C3: the spec's ω = 0 concrete scenario -/

/-- At `ω = 0` with `has_RHS2 = false` the assembled reduced RHS is
`i·0·RHS1r = 0`, so the LU solve returns the zero vector. -/
lemma solvePROMy_c3_zero :
    solvePROMy 4 false false false true 0 (Matrix.diagonal ![1, 2, 3, 4]) 0 1 0
      (fun _ => 1) 0 = 0 := by
  rw [solvePROMy]
  have hrhs : assembleRHSr 4 false true 0 (fun _ => 1) 0 = 0 := by
    simp [assembleRHSr]
  rw [hrhs, Matrix.mulVec_zero]

/-- Counterexample to claim C3: with `Kr = diag(1,2,3,4)`, `Mr = I`, no
damping, `has_A2 = has_RHS2 = false` and `RHS1r = [1,1,1,1]ᵗ`, the reduced
solution returned by `SolvePROM` at `ω = 0` is NOT `[1, 1/2, 1/3, 1/4]` to
within `1e-10`: the assembled right-hand side `iω·RHS1r` vanishes at
`ω = 0`, so the solution is the zero vector (entry 0 misses the claimed
value by 1). -/
theorem c3_counterexample :
    ¬ (∀ i : Fin 4, Complex.abs
        (solvePROMy 4 false false false true 0 (Matrix.diagonal ![1, 2, 3, 4]) 0 1 0
          (fun _ => 1) 0 i - ![1, 1/2, 1/3, 1/4] i) ≤ 1 / 10 ^ 10) := by
  intro h
  have h0 := h 0
  rw [solvePROMy_c3_zero] at h0
  simp only [Pi.zero_apply, Matrix.cons_val_zero, zero_sub] at h0
  rw [map_neg_eq_map, map_one] at h0
  norm_num at h0

/-- Claim C3 amended: in the stated scenario the reduced right-hand side at
`ω = 0` is `iω·RHS1r = 0`, so `SolvePROM` returns the zero reduced
solution (the claimed `[1, 1/2, 1/3, 1/4]` would require solving against
`RHSr = RHS1r`, without the `iω` factor). -/
theorem c3_amended :
    solvePROMy 4 false false false true 0 (Matrix.diagonal ![1, 2, 3, 4]) 0 1 0
      (fun _ => 1) 0 = 0 :=
  solvePROMy_c3_zero

/-! ## Claim C6: ComputeMRI (romoperator.cpp:106-131) -/

/-- The relative tolerance constant (romoperator.cpp:25:
`constexpr auto ORTHOG_TOL = 1.0e-12;`). -/
noncomputable def ORTHOG_TOL : ℝ := 1 / 10 ^ 12

/-- The index-selection loop of `ComputeMRI` (lines 122-129): starting from
`m = S - 1`, decrement `m` while `m > 0` and `σ[m] < ORTHOG_TOL·σ[0]`,
emitting one warning per decrement.  Returns the final `m` together with
the number of warnings emitted.  The singular values `σ` and the right
singular vectors are the output of the external dense-LA provider's full
SVD (`Eigen::JacobiSVD`), taken here as oracle inputs. -/
noncomputable def mriSelect (σ : ℕ → ℝ) (σ0 : ℝ) : ℕ → ℕ × ℕ
  | 0 => (0, 0)
  | m + 1 =>
      if σ (m + 1) < ORTHOG_TOL * σ0 then
        ((mriSelect σ σ0 m).1, (mriSelect σ σ0 m).2 + 1)
      else (m + 1, 0)

/-- The column index of `svd.matrixV()` selected by `ComputeMRI` for a
triangular factor with `S = R.rows()` samples. -/
noncomputable def computeMRIindex (S : ℕ) (σ : ℕ → ℝ) : ℕ :=
  (mriSelect σ (σ 0) (S - 1)).1

/-- Number of rank-deficiency warnings emitted by `ComputeMRI`. -/
noncomputable def computeMRIwarnings (S : ℕ) (σ : ℕ → ℝ) : ℕ :=
  (mriSelect σ (σ 0) (S - 1)).2

/-- `q = svd.matrixV().col(m)` (line 130): the barycentric weight vector is
the selected right singular vector. -/
noncomputable def computeMRI (S : ℕ) (σ : ℕ → ℝ) (Vmat : ℕ → ℕ → ℂ) : ℕ → ℂ :=
  fun i => Vmat i (computeMRIindex S σ)

/-- Characterization of the deflation loop: the result is at most the
starting index, every index strictly above it (up to the start) is
deficient, the result is either `0` or non-deficient, and one warning was
emitted per skipped deficient index. -/
lemma mriSelect_spec (σ : ℕ → ℝ) (σ0 : ℝ) (m : ℕ) :
    (mriSelect σ σ0 m).1 ≤ m ∧
    (∀ k, (mriSelect σ σ0 m).1 < k → k ≤ m → σ k < ORTHOG_TOL * σ0) ∧
    ((mriSelect σ σ0 m).1 = 0 ∨ ¬ σ (mriSelect σ σ0 m).1 < ORTHOG_TOL * σ0) ∧
    (mriSelect σ σ0 m).2 = m - (mriSelect σ σ0 m).1 := by
  induction m with
  | zero =>
      exact ⟨by simp [mriSelect], fun k hk hkm =>
        absurd (lt_of_lt_of_le hk hkm) (Nat.not_lt_zero _),
        Or.inl (by simp [mriSelect]), by simp [mriSelect]⟩
  | succ m ih =>
      obtain ⟨h1, h2, h3, h4⟩ := ih
      by_cases h : σ (m + 1) < ORTHOG_TOL * σ0
      · rw [mriSelect, if_pos h]
        refine ⟨le_trans h1 (Nat.le_succ m), ?_, h3, ?_⟩
        · intro k hk hkm
          rcases Nat.lt_or_ge k (m + 1) with hlt | hge
          · exact h2 k hk (Nat.lt_succ_iff.mp hlt)
          · have : k = m + 1 := le_antisymm hkm hge
            rw [this]; exact h
        · show (mriSelect σ σ0 m).2 + 1 = (m + 1) - (mriSelect σ σ0 m).1
          omega
      · rw [mriSelect, if_neg h]
        exact ⟨le_refl _, fun k hk hkm => absurd (lt_of_lt_of_le hk hkm)
          (lt_irrefl _), Or.inr h, by simp⟩

/-- Claim C6: after a snapshot insertion with `S ≥ 1` samples, `ComputeMRI`
sets `q` to the right singular vector (column of `matrixV()`) at the
selected index `m`; `m` starts at `S - 1` (the smallest singular value of
the descending-ordered SVD); every trailing singular value strictly below
`m` ... above `m` up to `S - 1` is deficient relative to `1e-12·σ[0]` and
produced one warning each; `m` is either non-deficient or the fallback top
index `0`; and when the last singular value is not deficient, `m = S - 1`
exactly (the absolute minimum). -/
theorem c6_computeMRI_deflation (S : ℕ) (σ : ℕ → ℝ) (Vmat : ℕ → ℕ → ℂ)
    (_hS : 1 ≤ S) :
    computeMRI S σ Vmat = (fun i => Vmat i (computeMRIindex S σ)) ∧
    computeMRIindex S σ ≤ S - 1 ∧
    (∀ k, computeMRIindex S σ < k → k ≤ S - 1 → σ k < ORTHOG_TOL * σ 0) ∧
    (computeMRIindex S σ = 0 ∨ ¬ σ (computeMRIindex S σ) < ORTHOG_TOL * σ 0) ∧
    computeMRIwarnings S σ = (S - 1) - computeMRIindex S σ ∧
    (¬ σ (S - 1) < ORTHOG_TOL * σ 0 → computeMRIindex S σ = S - 1) := by
  obtain ⟨h1, h2, h3, h4⟩ := mriSelect_spec σ (σ 0) (S - 1)
  refine ⟨rfl, h1, h2, h3, h4, ?_⟩
  intro hnd
  rw [computeMRIindex]
  cases hSm : S - 1 with
  | zero => simp [mriSelect]
  | succ m =>
      rw [hSm] at hnd
      rw [mriSelect, if_neg hnd]

/-- Witness for C6 at a concrete SVD output: `S = 3` samples with singular
values `5, 3, 2` (no deficiency). -/
theorem c6_computeMRI_deflation_witness :
    computeMRI 3 (fun k => if k = 0 then 5 else if k = 1 then 3 else 2)
        (fun (i j : ℕ) => (i : ℂ) + (j : ℂ)) =
      (fun i => (fun (i j : ℕ) => (i : ℂ) + (j : ℂ)) i
        (computeMRIindex 3 (fun k => if k = 0 then 5 else if k = 1 then 3 else 2))) :=
  (c6_computeMRI_deflation 3 (fun k => if k = 0 then 5 else if k = 1 then 3 else 2)
    (fun (i j : ℕ) => (i : ℂ) + (j : ℂ)) (by norm_num)).1

/-! ## Claim C7: FindMaxError (romoperator.cpp:363-385) -/

open Classical in
/-- Magnitude of the barycentric denominator `|Q(ω)| = |Σ_s q_s/(z_s − ω)|`
as the scan loop sees it.  At a previously sampled point `ω = z_s` the
floating-point evaluation divides by zero, producing a non-finite value
(±inf or NaN), for which every strict `<` comparison against the running
minimum is false; this is modelled by `⊤` in `WithTop ℝ`, which likewise
never satisfies `⊤ < x`.  `mfem::infinity()` (the initial `Q_star`) is
also `⊤`. -/
noncomputable def baryQabs (S : ℕ) (q : Fin S → ℂ) (z : Fin S → ℝ) (ω : ℝ) :
    WithTop ℝ :=
  if ∃ s, z s = ω then ⊤
  else ((Complex.abs (∑ s, q s / ((z s : ℂ) - (ω : ℂ))) : ℝ) : WithTop ℝ)

/-- Grid normalization at the top of `FindMaxError` (lines 367-371): a
negative `delta` is flipped, moving `start` to the low end. -/
noncomputable def fmeGrid (start delta : ℝ) (num_steps : ℕ) : ℝ × ℝ :=
  if delta < 0 then (start + ((num_steps : ℝ) - 1) * delta, -delta)
  else (start, delta)

/-- One iteration of the scan loop (lines 373-382): compute
`ω = start + step·delta` and `Q = |Σ q/(z − ω)|`, and take the new pair
when `Q < Q_star` strictly. -/
noncomputable def fmeStep (S : ℕ) (q : Fin S → ℂ) (z : Fin S → ℝ) (sd : ℝ × ℝ)
    (p : ℝ × WithTop ℝ) (step : ℕ) : ℝ × WithTop ℝ :=
  if baryQabs S q z (sd.1 + (step : ℝ) * sd.2) < p.2 then
    (sd.1 + (step : ℝ) * sd.2, baryQabs S q z (sd.1 + (step : ℝ) * sd.2))
  else p

/-- `RomOperator::FindMaxError`: scan the grid keeping the argmin of
`|Q(ω)|`, starting from `(ω_star, Q_star) = (0, ∞)`; the final
`MFEM_VERIFY(omega_star > 0.0)` (line 383) is the fatal path, modelled by
`none`. -/
noncomputable def findMaxError (S : ℕ) (q : Fin S → ℂ) (z : Fin S → ℝ)
    (start delta : ℝ) (num_steps : ℕ) : Option ℝ :=
  if 0 < ((List.range num_steps).foldl
      (fmeStep S q z (fmeGrid start delta num_steps)) ((0 : ℝ), (⊤ : WithTop ℝ))).1
  then some ((List.range num_steps).foldl
      (fmeStep S q z (fmeGrid start delta num_steps)) ((0 : ℝ), (⊤ : WithTop ℝ))).1
  else none

/-- The scan-loop invariant: the running argmin is still the initial `0`,
or its recorded `|Q|` value is finite (hence it is not a sampled point). -/
lemma fme_fold_invariant (S : ℕ) (q : Fin S → ℂ) (z : Fin S → ℝ) (sd : ℝ × ℝ)
    (l : List ℕ) :
    ∀ p : ℝ × WithTop ℝ, (p.1 = 0 ∨ baryQabs S q z p.1 ≠ ⊤) →
      ((l.foldl (fmeStep S q z sd) p).1 = 0 ∨
        baryQabs S q z ((l.foldl (fmeStep S q z sd) p).1) ≠ ⊤) := by
  induction l with
  | nil => intro p hp; simpa using hp
  | cons a l ih =>
      intro p hp
      rw [List.foldl_cons]
      apply ih
      rw [fmeStep]
      by_cases hQ : baryQabs S q z (sd.1 + (a : ℝ) * sd.2) < p.2
      · rw [if_pos hQ]
        exact Or.inr hQ.ne_top
      · rw [if_neg hQ]
        exact hp

/-- Claim C7: whenever `FindMaxError` returns a value (rather than hitting
the fatal `MFEM_VERIFY`), the returned parameter is never one of the
previously sampled values `z_s`: at a sampled point the barycentric sum is
non-finite, so the strict comparison `Q < Q_star` never selects it. -/
theorem c7_findMaxError_avoids_samples (S : ℕ) (q : Fin S → ℂ) (z : Fin S → ℝ)
    (start delta : ℝ) (num_steps : ℕ) (ω : ℝ)
    (h : findMaxError S q z start delta num_steps = some ω) :
    ∀ s : Fin S, z s ≠ ω := by
  rw [findMaxError] at h
  set P := (List.range num_steps).foldl
    (fmeStep S q z (fmeGrid start delta num_steps)) ((0 : ℝ), (⊤ : WithTop ℝ)) with hP
  by_cases h0 : 0 < P.1
  · rw [if_pos h0] at h
    have hω : P.1 = ω := Option.some.inj h
    rcases fme_fold_invariant S q z (fmeGrid start delta num_steps)
        (List.range num_steps) ((0 : ℝ), (⊤ : WithTop ℝ)) (Or.inl rfl) with h1 | h2
    · rw [← hP] at h1
      rw [h1] at h0
      exact absurd h0 (lt_irrefl 0)
    · rw [← hP, hω] at h2
      intro s hs
      exact h2 (by rw [baryQabs, if_pos ⟨s, hs⟩])
  · rw [if_neg h0] at h
    exact absurd h (by simp)

/-- Concrete run of `FindMaxError`: one sampled point `z = [1]` with weight
`q = [1]`, scanning the single grid point `ω = 2`, which is selected with
`|Q(2)| = 1`. -/
lemma findMaxError_concrete : findMaxError 1 ![1] ![1] 2 0 1 = some 2 := by
  have hgrid : fmeGrid 2 0 1 = ((2 : ℝ), (0 : ℝ)) := by
    rw [fmeGrid, if_neg (lt_irrefl (0 : ℝ))]
  have hne : ¬ ∃ s : Fin 1, (![(1 : ℝ)]) s = 2 := by
    rintro ⟨s, hs⟩
    fin_cases s
    norm_num at hs
  have hQ : baryQabs 1 ![1] ![1] 2 = ((1 : ℝ) : WithTop ℝ) := by
    rw [baryQabs, if_neg hne]
    have hsum : (∑ s : Fin 1, (![(1 : ℂ)]) s /
        (((![(1 : ℝ)]) s : ℝ) - ((2 : ℝ) : ℂ))) = -1 := by
      rw [Fin.sum_univ_one]
      norm_num
    rw [hsum, map_neg_eq_map, map_one]
  have hstep : fmeStep 1 ![1] ![1] (fmeGrid 2 0 1) ((0 : ℝ), (⊤ : WithTop ℝ)) 0 =
      ((2 : ℝ), ((1 : ℝ) : WithTop ℝ)) := by
    rw [fmeStep, hgrid]
    norm_num
    rw [hQ, if_pos (WithTop.coe_lt_top (1 : ℝ))]
    rfl
  have hr1 : List.range 1 = [0] := rfl
  have hfold : (List.range 1).foldl (fmeStep 1 ![1] ![1] (fmeGrid 2 0 1))
      ((0 : ℝ), (⊤ : WithTop ℝ)) = ((2 : ℝ), ((1 : ℝ) : WithTop ℝ)) := by
    rw [hr1, List.foldl_cons, List.foldl_nil, hstep]
  rw [findMaxError, hfold]
  norm_num

/-- Witness for C7: on the concrete run above the returned parameter `2`
differs from the sampled value `z_0 = 1`. -/
theorem c7_findMaxError_avoids_samples_witness : (![(1 : ℝ)]) 0 ≠ 2 :=
  c7_findMaxError_avoids_samples 1 ![1] ![1] 2 0 1 2 findMaxError_concrete 0

/-! ## Claim C8: deflation in SolveNEP (romoperator.cpp:686-807) -/

/-- Deflation bypass tolerance (line 698:
`constexpr auto deflation_tol = 1.0e-6;`). -/
noncomputable def deflation_tol : ℝ := 1 / 10 ^ 6

/-- One rank-one deflation factor
`P_i = I − ((λ − λ_i − 1)/(λ − λ_i))·x_i x_i*` (lines 720-722). -/
noncomputable def Pfac (n : ℕ) (x : Fin n → ℂ) (l li : ℂ) : Matrix (Fin n) (Fin n) ℂ :=
  1 - ((l - li - 1) / (l - li)) • Matrix.vecMulVec x (star x)

/-- The `Tp` output of `EvalDeflated` (lines 702-728): the undeflated
`T(λ)` (obtained from the caller-supplied evaluation, here an input) is
returned unchanged when no pairs have been found yet **or when the running
residual `res` has dropped below `deflation_tol`** (line 713); otherwise
it is right-multiplied by each deflation factor in turn
(`Tp = Tp * P`, line 723). -/
noncomputable def evalDeflatedT (n k : ℕ) (X : Fin k → Fin n → ℂ) (lam : Fin k → ℂ)
    (T : Matrix (Fin n) (Fin n) ℂ) (l : ℂ) (res : ℝ) : Matrix (Fin n) (Fin n) ℂ :=
  if k = 0 ∨ res < deflation_tol then T
  else (List.ofFn fun i => Pfac n (X i) l (lam i)).foldl (· * ·) T

/-- Euclidean norm of a dense complex vector (Eigen's `x.norm()`). -/
noncomputable def cnorm (n : ℕ) (x : Fin n → ℂ) : ℝ :=
  Real.sqrt (∑ i, Complex.normSq (x i))

/-- The eigenvector back-transform after convergence (lines 791-799):
`x := P_i x` for each previously found pair `i = 0, …, k−1`, with the
factors evaluated at the converged eigenvalue `λ_k`, followed by the
normalization `x /= x.norm()` before storing `X.col(k) = x`. -/
noncomputable def deflateVecBack (n k : ℕ) (X : Fin k → Fin n → ℂ) (lam : Fin k → ℂ)
    (lk : ℂ) (x : Fin n → ℂ) : Fin n → ℂ :=
  (cnorm n ((List.ofFn fun i => Pfac n (X i) lk (lam i)).foldl
      (fun v P => P.mulVec v) x))⁻¹ •
    (List.ofFn fun i => Pfac n (X i) lk (lam i)).foldl (fun v P => P.mulVec v) x

/-- Left fold of matrix multiplication starting from `T` is `T` times the
list product. -/
lemma foldl_mul_eq_prod {α : Type} [Monoid α] (T : α) (l : List α) :
    l.foldl (· * ·) T = T * l.prod := by
  induction l generalizing T with
  | nil => simp
  | cons a l ih => rw [List.foldl_cons, ih, List.prod_cons, mul_assoc]

/-- Successive application of matrices to a vector is application of the
reversed product. -/
lemma foldl_mulVec_eq_prod {n : ℕ} (x : Fin n → ℂ)
    (l : List (Matrix (Fin n) (Fin n) ℂ)) :
    l.foldl (fun v P => P.mulVec v) x = l.reverse.prod.mulVec x := by
  induction l generalizing x with
  | nil => simp [Matrix.one_mulVec]
  | cons P l ih =>
      rw [List.foldl_cons, ih, List.reverse_cons, List.prod_append, List.prod_cons,
        List.prod_nil, mul_one, Matrix.mulVec_mulVec]

/-- Counterexample to claim C8: with one converged pair (`k = 1`,
`x_1 = [1]`, `λ_1 = 0`), operator `T = I` at `λ = 2` and running residual
`res = 0 < deflation_tol`, `EvalDeflated` returns `T` unchanged — it is
NOT right-multiplied by the deflation factor product over the previously
found pairs (which would give the entry `1/2` instead of `1`). -/
theorem c8_counterexample :
    evalDeflatedT 1 1 ![![1]] ![0] 1 2 0 ≠
      (1 : Matrix (Fin 1) (Fin 1) ℂ) *
        (List.ofFn fun i => Pfac 1 ((![![1]] : Fin 1 → Fin 1 → ℂ) i) 2
          ((![0] : Fin 1 → ℂ) i)).prod := by
  have hL : evalDeflatedT 1 1 ![![1]] ![0] 1 2 0 = 1 := by
    rw [evalDeflatedT, if_pos (Or.inr (by rw [deflation_tol]; norm_num))]
  rw [hL]
  intro h
  have h00 := congrFun (congrFun h 0) 0
  simp only [List.ofFn_succ, List.ofFn_zero, List.prod_cons, List.prod_nil,
    Matrix.one_apply, Matrix.mul_apply, Fin.sum_univ_one, Pfac,
    Matrix.sub_apply, Matrix.smul_apply, Matrix.vecMulVec_apply,
    Matrix.cons_val_zero, Pi.star_apply, mul_one, Fin.isValue] at h00
  norm_num at h00

/-- Claim C8 amended: the operator evaluation is right-multiplied by the
product of the deflation factors `P_i` over all previously found pairs
**only while the running residual is at or above `deflation_tol = 1e-6`**
(once `res < 1e-6` the deflation is bypassed and `T(λ)` is returned
unchanged); under that proviso the code path equals `T · Π P_i`, and the
converged eigenvector is transformed by applying the deflation factor
product (evaluated at the converged eigenvalue) before normalization and
storage. -/
theorem c8_amended {n k : ℕ} (X : Fin k → Fin n → ℂ) (lam : Fin k → ℂ)
    (T : Matrix (Fin n) (Fin n) ℂ) (l lk : ℂ) (res : ℝ) (x : Fin n → ℂ)
    (hres : ¬ res < deflation_tol) :
    evalDeflatedT n k X lam T l res =
      T * (List.ofFn fun i => Pfac n (X i) l (lam i)).prod ∧
    deflateVecBack n k X lam lk x =
      (cnorm n (((List.ofFn fun i => Pfac n (X i) lk (lam i)).reverse).prod.mulVec
          x))⁻¹ •
        ((List.ofFn fun i => Pfac n (X i) lk (lam i)).reverse).prod.mulVec x := by
  constructor
  · rw [evalDeflatedT]
    by_cases hk : k = 0
    · rw [if_pos (Or.inl hk)]
      subst hk
      simp [List.ofFn_zero]
    · rw [if_neg (not_or.mpr ⟨hk, hres⟩)]
      exact foldl_mul_eq_prod T _
  · rw [deflateVecBack, foldl_mulVec_eq_prod]

/-- Witness for the amended C8 at a concrete input (`k = 1`, residual
`res = 1` at or above the deflation tolerance). -/
theorem c8_amended_witness :
    evalDeflatedT 1 1 ![![1]] ![0] 1 2 1 =
      (1 : Matrix (Fin 1) (Fin 1) ℂ) *
        (List.ofFn fun i => Pfac 1 ((![![1]] : Fin 1 → Fin 1 → ℂ) i) 2
          ((![0] : Fin 1 → ℂ) i)).prod :=
  (c8_amended ![![1]] ![0] 1 2 2 1 ![1]
    (by rw [deflation_tol]; norm_num)).1

/-! ## Claim C9: non-convergence handling in MSLP / RII (lines 390-573) -/

/-- Residual tolerance of the eigensolver loops (lines 396 and 497:
`constexpr auto tol = 1.0e-9;`). -/
noncomputable def nepTol : ℝ := 1 / 10 ^ 9

/-- Skeleton of the MSLP loop (lines 409-489) and of the RII outer loop
(lines 513-572): the state is iterated while the residual stays at or
above the tolerance, for at most `fuel` iterations (`max_it = 100`).  The
`Bool` output records whether a non-convergence warning was emitted on
loop exhaustion: the source's `if (it == max_it)` blocks are empty
(`// XX TODO WARNING...`, lines 485-488 and 569-572), so no warning is
ever emitted on either exit path. -/
noncomputable def nepIterLoop {α : Type} (step : α → α) (resOf : α → ℝ) :
    ℕ → α → α × Bool
  | 0, s => (s, false)
  | fuel + 1, s =>
      if resOf s < nepTol then (s, false) else nepIterLoop step resOf fuel (step s)

/-- The loop with the source's iteration cap `max_it = 100`. -/
noncomputable def nepIterate {α : Type} (step : α → α) (resOf : α → ℝ) (s : α) :
    α × Bool :=
  nepIterLoop step resOf 100 s

/-- Exhausting the fuel without converging returns the final iterate and no
warning. -/
lemma nepIterLoop_nonconv {α : Type} (step : α → α) (resOf : α → ℝ) (fuel : ℕ) :
    ∀ s : α, (∀ m : ℕ, nepTol ≤ resOf (step^[m] s)) →
      nepIterLoop step resOf fuel s = (step^[fuel] s, false) := by
  induction fuel with
  | zero => intro s h; simp [nepIterLoop]
  | succ fuel ih =>
      intro s h
      rw [nepIterLoop, if_neg (not_lt.mpr (by simpa using h 0)),
        ih (step s) fun m => by
          simpa [Function.iterate_succ_apply] using h (m + 1),
        ← Function.iterate_succ_apply]

/-- Claim C9, code side: if the residual never reaches the tolerance, the
MSLP/RII-shaped iteration exhausts its 100-iteration cap and returns the
best available iterate — the caller is not aborted — but the
emitted-warning flag is `false`: non-convergence is silently ignored (the
warning blocks in the source are empty `XX TODO` stubs), contradicting the
claim that a warning is reported. -/
theorem c9_nonconvergence_silent {α : Type} (step : α → α) (resOf : α → ℝ) (s : α)
    (h : ∀ m : ℕ, nepTol ≤ resOf (step^[m] s)) :
    nepIterate step resOf s = (step^[100] s, false) :=
  nepIterLoop_nonconv step resOf 100 s h

/-- Witness for C9: a concrete never-converging run (constant residual 1). -/
theorem c9_nonconvergence_silent_witness :
    nepIterate (id : ℕ → ℕ) (fun _ => 1) 0 = (id^[100] 0, false) :=
  c9_nonconvergence_silent id (fun _ => 1) 0 (fun m => by rw [nepTol]; norm_num)

/-! ## Claims C1/C2: basis extension in UpdatePROM (romoperator.cpp:220-248)

The orthogonalization kernels `linalg::OrthogonalizeColumnMGS` and
`linalg::OrthogonalizeColumnCGS` live in `linalg/orthog.hpp`, which is not
among the provided sources; they are modelled from the spec (§4.2).  The
`UpdatePROM` driver logic — the norm thresholds and the unconditional
append-and-normalize — is translated from romoperator.cpp:220-248. -/

/-- Bilinearity and symmetry facts about the global inner product. -/
lemma dotg_comm {N : ℕ} (x y : Vec N) : dotg x y = dotg y x := by
  unfold dotg
  exact Finset.sum_congr rfl fun i _ => mul_comm _ _

/-- The inner product distributes over vector subtraction on the right. -/
lemma dotg_sub_right {N : ℕ} (x y z : Vec N) :
    dotg x (y - z) = dotg x y - dotg x z := by
  unfold dotg
  rw [← Finset.sum_sub_distrib]
  exact Finset.sum_congr rfl fun i _ => by rw [Pi.sub_apply, mul_sub]

/-- The inner product distributes over vector addition on the right. -/
lemma dotg_add_right {N : ℕ} (x y z : Vec N) :
    dotg x (y + z) = dotg x y + dotg x z := by
  unfold dotg
  rw [← Finset.sum_add_distrib]
  exact Finset.sum_congr rfl fun i _ => by rw [Pi.add_apply, mul_add]

/-- Scalars move out of the inner product on the right. -/
lemma dotg_smul_right {N : ℕ} (c : ℝ) (x y : Vec N) :
    dotg x (c • y) = c * dotg x y := by
  unfold dotg
  rw [Finset.mul_sum]
  exact Finset.sum_congr rfl fun i _ => by rw [Pi.smul_apply, smul_eq_mul]; ring

/-- Scalars move out of the inner product on the left. -/
lemma dotg_smul_left {N : ℕ} (c : ℝ) (x y : Vec N) :
    dotg (c • x) y = c * dotg x y := by
  rw [dotg_comm, dotg_smul_right, dotg_comm]

/-- The inner product against the zero vector vanishes. -/
lemma dotg_zero_right {N : ℕ} (x : Vec N) : dotg x (0 : Vec N) = 0 := by
  simp [dotg]

/-- The inner product of a vector with itself is nonnegative. -/
lemma dotg_self_nonneg {N : ℕ} (x : Vec N) : 0 ≤ dotg x x :=
  Finset.sum_nonneg fun _ _ => mul_self_nonneg _

/-- The inner product against a list sum is the sum of inner products. -/
lemma dotg_list_sum {N : ℕ} (x : Vec N) (l : List (Vec N)) :
    dotg x l.sum = (l.map (dotg x)).sum := by
  induction l with
  | nil => simpa using dotg_zero_right x
  | cons a l ih =>
      rw [List.sum_cons, dotg_add_right, List.map_cons, List.sum_cons, ih]

/-- Norm `linalg::Norml2`: square root of the global inner product. -/
noncomputable def norml2 {N : ℕ} (x : Vec N) : ℝ := Real.sqrt (dotg x x)

/-- The three selectable orthogonalization schemes
(`GmresSolverBase::OrthogType`, dispatched in romoperator.cpp:27-45). -/
inductive OrthogType : Type
  | MGS
  | CGS
  | CGS2
deriving DecidableEq, Repr

/-- Modelled from the spec: `linalg::OrthogonalizeColumnCGS` of
`linalg/orthog.hpp` (not among the sources) — classical Gram-Schmidt: all
projection coefficients are computed against the unmodified working vector
in one pass, then their combined contribution is subtracted (spec §4.2).
The coefficients are stored into `H`/`R` by the caller and only the
updated working vector matters here. -/
def orthogCGS {N : ℕ} (V : List (Vec N)) (w : Vec N) : Vec N :=
  w - (V.map fun v => dotg v w • v).sum

/-- Modelled from the spec: `linalg::OrthogonalizeColumnMGS` of
`linalg/orthog.hpp` (not among the sources) — modified Gram-Schmidt: each
existing basis vector is projected out sequentially, updating the working
vector in place after each projection (spec §4.2). -/
def orthogMGS {N : ℕ} (V : List (Vec N)) (w : Vec N) : Vec N :=
  V.foldl (fun acc v => acc - dotg v acc • v) w

/-- Modelled from the spec: CGS2 applies CGS twice (the `cgs2 = true`
variant of `OrthogonalizeColumnCGS`; spec §4.2). -/
def orthogCGS2 {N : ℕ} (V : List (Vec N)) (w : Vec N) : Vec N :=
  orthogCGS V (orthogCGS V w)

/-- The `OrthogonalizeColumn` dispatch (romoperator.cpp:27-45). -/
def orthogonalizeColumn {N : ℕ} (t : OrthogType) (V : List (Vec N)) (w : Vec N) :
    Vec N :=
  match t with
  | OrthogType.MGS => orthogMGS V w
  | OrthogType.CGS => orthogCGS V w
  | OrthogType.CGS2 => orthogCGS2 V w

/-- Orthonormal ordered basis: unit diagonal, pairwise orthogonal. -/
def ONB {N : ℕ} (V : List (Vec N)) : Prop :=
  (∀ v ∈ V, dotg v v = 1) ∧ V.Pairwise fun a b => dotg a b = 0

/-- Against an orthonormal basis the CGS projection sum reproduces the
coefficient of any basis member. -/
lemma sum_proj_eq {N : ℕ} : ∀ (V : List (Vec N)), ONB V → ∀ {u : Vec N}, u ∈ V →
    ∀ w : Vec N, (V.map fun v => dotg u (dotg v w • v)).sum = dotg u w
  | [], _, u, hu, _ => absurd hu (List.not_mem_nil u)
  | v :: rest, h, u, hu, w => by
      obtain ⟨hunit, hpair⟩ := h
      rw [List.pairwise_cons] at hpair
      rw [List.map_cons, List.sum_cons]
      rcases List.mem_cons.mp hu with rfl | hmem
      · have hrest : (rest.map fun x => dotg u (dotg x w • x)).sum = 0 := by
          apply List.sum_eq_zero
          intro y hy
          rcases List.mem_map.mp hy with ⟨x, hx, rfl⟩
          rw [dotg_smul_right, hpair.1 x hx, mul_zero]
        rw [hrest, dotg_smul_right, hunit u (List.mem_cons_self u rest), mul_one,
          add_zero]
      · have hhead : dotg u (dotg v w • v) = 0 := by
          rw [dotg_smul_right, dotg_comm u v, hpair.1 u hmem, mul_zero]
        have hONBrest : ONB rest :=
          ⟨fun x hx => hunit x (List.mem_cons_of_mem v hx), hpair.2⟩
        rw [hhead, zero_add, sum_proj_eq rest hONBrest hmem w]

/-- The CGS residual is orthogonal to every member of an orthonormal
basis. -/
lemma dotg_orthogCGS {N : ℕ} {V : List (Vec N)} (h : ONB V) {u : Vec N}
    (hu : u ∈ V) (w : Vec N) : dotg u (orthogCGS V w) = 0 := by
  rw [orthogCGS, dotg_sub_right, dotg_list_sum, List.map_map]
  have hcomp : V.map (dotg u ∘ fun v => dotg v w • v)
      = V.map fun v => dotg u (dotg v w • v) := rfl
  rw [hcomp, sum_proj_eq V h hu w, sub_self]

/-- In exact arithmetic, against an orthonormal basis MGS produces the same
residual as CGS: once the earlier columns have been projected out, the
remaining coefficients are unchanged. -/
lemma orthogMGS_eq_orthogCGS {N : ℕ} : ∀ (V : List (Vec N)), ONB V → ∀ w : Vec N,
    orthogMGS V w = orthogCGS V w
  | [], _, w => by simp [orthogMGS, orthogCGS]
  | v :: rest, h, w => by
      obtain ⟨hunit, hpair⟩ := h
      rw [List.pairwise_cons] at hpair
      have hONBrest : ONB rest :=
        ⟨fun x hx => hunit x (List.mem_cons_of_mem v hx), hpair.2⟩
      have hfold : orthogMGS (v :: rest) w = orthogMGS rest (w - dotg v w • v) := rfl
      rw [hfold, orthogMGS_eq_orthogCGS rest hONBrest _]
      have hcoef : ∀ x ∈ rest, dotg x (w - dotg v w • v) • x = dotg x w • x := by
        intro x hx
        rw [dotg_sub_right, dotg_smul_right, dotg_comm x v, hpair.1 x hx, mul_zero,
          sub_zero]
      rw [orthogCGS, orthogCGS, List.map_congr_left hcoef, List.map_cons,
        List.sum_cons, sub_add_eq_sub_sub]

/-- The second CGS pass subtracts only zero coefficients: CGS2 equals CGS
against an orthonormal basis. -/
lemma orthogCGS2_eq_orthogCGS {N : ℕ} {V : List (Vec N)} (h : ONB V) (w : Vec N) :
    orthogCGS2 V w = orthogCGS V w := by
  have houter : orthogCGS2 V w
      = orthogCGS V w - (V.map fun v => dotg v (orthogCGS V w) • v).sum := rfl
  have hzero : (V.map fun v => dotg v (orthogCGS V w) • v).sum = 0 := by
    apply List.sum_eq_zero
    intro y hy
    rcases List.mem_map.mp hy with ⟨x, hx, rfl⟩
    rw [dotg_orthogCGS h hx, zero_smul]
  rw [houter, hzero, sub_zero]

/-- All three schemes produce the CGS residual against an orthonormal
basis. -/
lemma orthogonalizeColumn_eq_CGS {N : ℕ} (t : OrthogType) {V : List (Vec N)}
    (h : ONB V) (w : Vec N) : orthogonalizeColumn t V w = orthogCGS V w := by
  cases t
  · exact orthogMGS_eq_orthogCGS V h w
  · rfl
  · exact orthogCGS2_eq_orthogCGS h w

/-- The orthogonalized residual of any scheme is orthogonal to the basis. -/
lemma dotg_orthogonalizeColumn {N : ℕ} (t : OrthogType) {V : List (Vec N)}
    (h : ONB V) {u : Vec N} (hu : u ∈ V) (w : Vec N) :
    dotg u (orthogonalizeColumn t V w) = 0 := by
  rw [orthogonalizeColumn_eq_CGS t h w]
  exact dotg_orthogCGS h hu w

/-- The combined norm `sqrt(normr*normr + normi*normi)` of lines 227-228. -/
noncomputable def combinedNorm {N : ℕ} (ure uim : Vec N) : ℝ :=
  Real.sqrt (norml2 ure * norml2 ure + norml2 uim * norml2 uim)

/-- `has_real` (line 227): the real part's pre-orthogonalization norm
exceeds the relative threshold `ORTHOG_TOL` times the combined norm. -/
def hasRealPart {N : ℕ} (ure uim : Vec N) : Prop :=
  ORTHOG_TOL * combinedNorm ure uim < norml2 ure

/-- `has_imag` (line 228), same threshold for the imaginary part. -/
def hasImagPart {N : ℕ} (ure uim : Vec N) : Prop :=
  ORTHOG_TOL * combinedNorm ure uim < norml2 uim

/-- Append one orthogonalized, normalized column (lines 234-239 resp.
242-247): `V[dim_V] = part; OrthogonalizeColumn(…); H[dim_V] = Norml2;
V[dim_V] *= 1.0/H[dim_V]; dim_V++`.  There is no rejection test: the
column is appended whatever the post-orthogonalization norm. -/
noncomputable def appendBasis {N : ℕ} (t : OrthogType) (V : List (Vec N))
    (w : Vec N) : List (Vec N) :=
  V ++ [(norml2 (orthogonalizeColumn t V w))⁻¹ • orthogonalizeColumn t V w]

open Classical in
/-- State of the basis after the `if (has_real)` block (lines 233-240). -/
noncomputable def basisAfterReal {N : ℕ} (t : OrthogType) (V : List (Vec N))
    (ure uim : Vec N) : List (Vec N) :=
  if hasRealPart ure uim then appendBasis t V ure else V

open Classical in
/-- The basis-update phase of `UpdatePROM` (lines 224-248): decide
`has_real`/`has_imag` from the pre-orthogonalization norms, then run the
`if (has_real)` append followed by the `if (has_imag)` append (the
imaginary part is orthogonalized against the basis already extended by the
real part). -/
noncomputable def updatePROMBasis {N : ℕ} (t : OrthogType) (V : List (Vec N))
    (ure uim : Vec N) : List (Vec N) :=
  if hasImagPart ure uim then appendBasis t (basisAfterReal t V ure uim) uim
  else basisAfterReal t V ure uim

/-- A nondegenerate insertion: each part that passes its norm threshold has
a nonzero post-orthogonalization residual (i.e. is linearly independent of
the basis it is orthogonalized against). -/
def goodStep {N : ℕ} (t : OrthogType) (V : List (Vec N)) (ure uim : Vec N) : Prop :=
  (hasRealPart ure uim →
    dotg (orthogonalizeColumn t V ure) (orthogonalizeColumn t V ure) ≠ 0) ∧
  (hasImagPart ure uim →
    dotg (orthogonalizeColumn t (basisAfterReal t V ure uim) uim)
      (orthogonalizeColumn t (basisAfterReal t V ure uim) uim) ≠ 0)

/-- Bases reachable from the empty basis by `UpdatePROM` calls whose
insertions are all nondegenerate. -/
inductive ReachableBasis {N : ℕ} (t : OrthogType) : List (Vec N) → Prop
  | nil : ReachableBasis t []
  | step (V : List (Vec N)) (ure uim : Vec N) :
      ReachableBasis t V → goodStep t V ure uim →
      ReachableBasis t (updatePROMBasis t V ure uim)

/-- Appending the normalization of a vector that is orthogonal to an
orthonormal list and has nonzero self-inner-product keeps the list
orthonormal. -/
lemma ONB_append_general {N : ℕ} {V : List (Vec N)} (h : ONB V) {w2 : Vec N}
    (horth : ∀ u ∈ V, dotg u w2 = 0) (hres : dotg w2 w2 ≠ 0) :
    ONB (V ++ [(norml2 w2)⁻¹ • w2]) := by
  have hunit_new : dotg ((norml2 w2)⁻¹ • w2) ((norml2 w2)⁻¹ • w2) = 1 := by
    rw [dotg_smul_left, dotg_smul_right, ← mul_assoc, ← mul_inv, norml2,
      Real.mul_self_sqrt (dotg_self_nonneg w2)]
    exact inv_mul_cancel₀ hres
  constructor
  · intro v hv
    rcases List.mem_append.mp hv with hvV | hvnew
    · exact h.1 v hvV
    · rw [List.mem_singleton.mp hvnew]
      exact hunit_new
  · rw [List.pairwise_append]
    refine ⟨h.2, List.pairwise_singleton _ _, ?_⟩
    intro a ha b hb
    rw [List.mem_singleton.mp hb, dotg_smul_right, horth a ha, mul_zero]

/-- A nondegenerate `appendBasis` step preserves orthonormality. -/
lemma ONB_appendBasis {N : ℕ} (t : OrthogType) {V : List (Vec N)} (h : ONB V)
    {w : Vec N}
    (hres : dotg (orthogonalizeColumn t V w) (orthogonalizeColumn t V w) ≠ 0) :
    ONB (appendBasis t V w) := by
  rw [appendBasis]
  exact ONB_append_general h (fun u hu => dotg_orthogonalizeColumn t h hu w) hres

/-- A nondegenerate `UpdatePROM` basis step preserves orthonormality. -/
lemma ONB_updatePROMBasis {N : ℕ} (t : OrthogType) {V : List (Vec N)}
    (h : ONB V) {ure uim : Vec N} (hg : goodStep t V ure uim) :
    ONB (updatePROMBasis t V ure uim) := by
  obtain ⟨hgr, hgi⟩ := hg
  have h1 : ONB (basisAfterReal t V ure uim) := by
    rw [basisAfterReal]
    by_cases hr : hasRealPart ure uim
    · rw [if_pos hr]
      exact ONB_appendBasis t h (hgr hr)
    · rw [if_neg hr]
      exact h
  rw [updatePROMBasis]
  by_cases hi : hasImagPart ure uim
  · rw [if_pos hi]
    exact ONB_appendBasis t h1 (hgi hi)
  · rw [if_neg hi]
    exact h1

/-- From orthonormality to the Gram-matrix identity `Vᵗ V = I`. -/
lemma ONB_gram {N : ℕ} {V : List (Vec N)} (h : ONB V) (i j : Fin V.length) :
    dotg (V.get i) (V.get j) = if (i : ℕ) = (j : ℕ) then 1 else 0 := by
  rcases lt_trichotomy (i : ℕ) (j : ℕ) with hlt | heq | hgt
  · rw [if_neg (Nat.ne_of_lt hlt)]
    exact List.pairwise_iff_get.mp h.2 i j hlt
  · have hij : i = j := Fin.ext heq
    rw [hij, if_pos rfl]
    exact h.1 _ (List.get_mem V j.1 j.2)
  · rw [if_neg (Nat.ne_of_gt hgt), dotg_comm]
    exact List.pairwise_iff_get.mp h.2 j i hgt

/-- Claim C1 (amended): after every sequence of `UpdatePROM` basis
extensions in which each appended part has a nonzero post-orthogonalization
residual, the stored basis is exactly orthonormal (in the exact-arithmetic
model): each stored vector has unit global norm, the vectors are pairwise
orthogonal, and the Gram matrix `Vᵗ V` is the identity — for every one of
the three schemes MGS, CGS, CGS2. -/
theorem c1_orthonormal_invariant {N : ℕ} (t : OrthogType) (V : List (Vec N))
    (h : ReachableBasis t V) :
    (∀ v ∈ V, dotg v v = 1) ∧ (V.Pairwise fun a b => dotg a b = 0) ∧
    ∀ i j : Fin V.length,
      dotg (V.get i) (V.get j) = if (i : ℕ) = (j : ℕ) then 1 else 0 := by
  have hONB : ONB V := by
    induction h with
    | nil => exact ⟨fun v hv => absurd hv (List.not_mem_nil v), List.Pairwise.nil⟩
    | step V ure uim hreach hgood ih => exact ONB_updatePROMBasis t ih hgood
  exact ⟨hONB.1, hONB.2, ONB_gram hONB⟩

/-! ### Concrete evaluations for the C1/C2 witnesses and counterexamples -/

/-- Inner product of two concrete 2-vectors. -/
lemma dotg_pair (a b c d : ℝ) : dotg ![a, b] ![c, d] = a * c + b * d := by
  simp [dotg, Fin.sum_univ_two]

/-- Norm of the first unit coordinate vector. -/
lemma norml2_e1 : norml2 ![(1 : ℝ), 0] = 1 := by
  rw [norml2, dotg_pair, show (1 * 1 + 0 * 0 : ℝ) = 1 by norm_num, Real.sqrt_one]

/-- Norm of the second unit coordinate vector. -/
lemma norml2_e2 : norml2 ![(0 : ℝ), 1] = 1 := by
  rw [norml2, dotg_pair, show (0 * 0 + 1 * 1 : ℝ) = 1 by norm_num, Real.sqrt_one]

/-- Norm of the scaled duplicate `[2, 0]`. -/
lemma norml2_u2 : norml2 ![(2 : ℝ), 0] = 2 := by
  rw [norml2, dotg_pair, show (2 * 2 + 0 * 0 : ℝ) = 2 ^ 2 by norm_num,
    Real.sqrt_sq (by norm_num : (0 : ℝ) ≤ 2)]

/-- Norm of the zero vector. -/
lemma norml2_zero_vec {N : ℕ} : norml2 (0 : Vec N) = 0 := by
  rw [norml2, dotg_zero_right, Real.sqrt_zero]

/-- Combined norm for real part `[1,0]` and zero imaginary part. -/
lemma combined_e1 : combinedNorm ![(1 : ℝ), 0] (0 : Vec 2) = 1 := by
  rw [combinedNorm, norml2_e1, norml2_zero_vec,
    show (1 * 1 + 0 * 0 : ℝ) = 1 by norm_num, Real.sqrt_one]

/-- Combined norm for real part `[2,0]` and zero imaginary part. -/
lemma combined_u2 : combinedNorm ![(2 : ℝ), 0] (0 : Vec 2) = 2 := by
  rw [combinedNorm, norml2_u2, norml2_zero_vec,
    show (2 * 2 + 0 * 0 : ℝ) = 2 ^ 2 by norm_num,
    Real.sqrt_sq (by norm_num : (0 : ℝ) ≤ 2)]

/-- Combined norm for real part `[1,0]` and imaginary part `[0,1]`. -/
lemma combined_mixed : combinedNorm ![(1 : ℝ), 0] ![(0 : ℝ), 1] = Real.sqrt 2 := by
  rw [combinedNorm, norml2_e1, norml2_e2]
  norm_num

/-- The real part `[1,0]` passes the threshold. -/
lemma hasReal_e1 : hasRealPart ![(1 : ℝ), 0] (0 : Vec 2) := by
  show ORTHOG_TOL * combinedNorm ![(1 : ℝ), 0] (0 : Vec 2) < norml2 ![(1 : ℝ), 0]
  rw [combined_e1, norml2_e1, ORTHOG_TOL]
  norm_num

/-- The zero imaginary part fails the threshold. -/
lemma not_hasImag_e1 : ¬ hasImagPart ![(1 : ℝ), 0] (0 : Vec 2) := by
  show ¬ ORTHOG_TOL * combinedNorm ![(1 : ℝ), 0] (0 : Vec 2) < norml2 (0 : Vec 2)
  rw [combined_e1, norml2_zero_vec, ORTHOG_TOL]
  norm_num

/-- The real part `[2,0]` passes the threshold. -/
lemma hasReal_u2 : hasRealPart ![(2 : ℝ), 0] (0 : Vec 2) := by
  show ORTHOG_TOL * combinedNorm ![(2 : ℝ), 0] (0 : Vec 2) < norml2 ![(2 : ℝ), 0]
  rw [combined_u2, norml2_u2, ORTHOG_TOL]
  norm_num

/-- The zero imaginary part fails the threshold again. -/
lemma not_hasImag_u2 : ¬ hasImagPart ![(2 : ℝ), 0] (0 : Vec 2) := by
  show ¬ ORTHOG_TOL * combinedNorm ![(2 : ℝ), 0] (0 : Vec 2) < norml2 (0 : Vec 2)
  rw [combined_u2, norml2_zero_vec, ORTHOG_TOL]
  norm_num

/-- Both parts of the pair `([1,0], [0,1])` pass the threshold. -/
lemma hasReal_mixed : hasRealPart ![(1 : ℝ), 0] ![(0 : ℝ), 1] := by
  show ORTHOG_TOL * combinedNorm ![(1 : ℝ), 0] ![(0 : ℝ), 1] < norml2 ![(1 : ℝ), 0]
  rw [combined_mixed, norml2_e1, ORTHOG_TOL]
  nlinarith [Real.sq_sqrt (show (0 : ℝ) ≤ 2 by norm_num), Real.sqrt_nonneg 2]

/-- The imaginary part `[0,1]` passes the threshold as well. -/
lemma hasImag_mixed : hasImagPart ![(1 : ℝ), 0] ![(0 : ℝ), 1] := by
  show ORTHOG_TOL * combinedNorm ![(1 : ℝ), 0] ![(0 : ℝ), 1] < norml2 ![(0 : ℝ), 1]
  rw [combined_mixed, norml2_e2, ORTHOG_TOL]
  nlinarith [Real.sq_sqrt (show (0 : ℝ) ≤ 2 by norm_num), Real.sqrt_nonneg 2]

/-- First insertion (CGS): the basis becomes `[[1,0]]`. -/
lemma updatePROM_first :
    updatePROMBasis OrthogType.CGS ([] : List (Vec 2)) ![1, 0] 0 = [![(1 : ℝ), 0]] := by
  have hbar : basisAfterReal OrthogType.CGS ([] : List (Vec 2)) ![1, 0] 0
      = [![(1 : ℝ), 0]] := by
    rw [basisAfterReal, if_pos hasReal_e1, appendBasis]
    have hw : orthogonalizeColumn OrthogType.CGS ([] : List (Vec 2)) ![1, 0]
        = ![(1 : ℝ), 0] := by
      show orthogCGS ([] : List (Vec 2)) ![1, 0] = ![(1 : ℝ), 0]
      rw [orthogCGS]
      simp
    rw [hw, norml2_e1, inv_one, one_smul, List.nil_append]
  rw [updatePROMBasis, if_neg not_hasImag_e1, hbar]

/-- The CGS residual of the scaled duplicate `[2,0]` against `[[1,0]]`
vanishes: the candidate is linearly dependent. -/
lemma orthog_u2_CGS :
    orthogonalizeColumn OrthogType.CGS [![(1 : ℝ), 0]] ![2, 0] = 0 := by
  show orthogCGS [![(1 : ℝ), 0]] ![2, 0] = 0
  rw [orthogCGS, List.map_cons, List.map_nil, List.sum_cons, List.sum_nil, add_zero,
    dotg_pair]
  funext i
  fin_cases i <;> simp

/-- Second insertion (CGS): the zero residual is appended and "normalized"
all the same — the basis becomes `[[1,0], 0]`. -/
lemma updatePROM_second :
    updatePROMBasis OrthogType.CGS [![(1 : ℝ), 0]] ![2, 0] 0
      = [![(1 : ℝ), 0], (0 : Vec 2)] := by
  rw [updatePROMBasis, if_neg not_hasImag_u2, basisAfterReal, if_pos hasReal_u2,
    appendBasis, orthog_u2_CGS, smul_zero]
  rfl

/-- Counterexample to claim C1: the orthonormality invariant does not hold
after *every* sequence of `UpdatePROM` calls.  Inserting `[1,0]` and then
the scale-duplicate `[2,0]` (zero imaginary parts, CGS scheme) leaves a
stored basis vector — the "normalized" zero residual — whose global norm
is 0, not 1. -/
theorem c1_counterexample :
    ¬ (∀ v ∈ updatePROMBasis OrthogType.CGS
          (updatePROMBasis OrthogType.CGS ([] : List (Vec 2)) ![1, 0] 0) ![2, 0] 0,
        dotg v v = 1) := by
  rw [updatePROM_first, updatePROM_second]
  intro hunit
  have h0 := hunit (0 : Vec 2)
    (List.mem_cons.mpr (Or.inr (List.mem_singleton.mpr rfl)))
  rw [dotg_zero_right] at h0
  norm_num at h0

/-- The MGS residual of `[1,0]` against the empty basis. -/
lemma goodStep_mixed : goodStep OrthogType.MGS ([] : List (Vec 2)) ![1, 0] ![0, 1] := by
  constructor
  · intro _
    have hw : orthogonalizeColumn OrthogType.MGS ([] : List (Vec 2)) ![1, 0]
        = ![(1 : ℝ), 0] := rfl
    rw [hw, dotg_pair]
    norm_num
  · intro _
    have hbar : basisAfterReal OrthogType.MGS ([] : List (Vec 2)) ![1, 0] ![0, 1]
        = [![(1 : ℝ), 0]] := by
      rw [basisAfterReal, if_pos hasReal_mixed, appendBasis]
      have hw : orthogonalizeColumn OrthogType.MGS ([] : List (Vec 2)) ![1, 0]
          = ![(1 : ℝ), 0] := rfl
      rw [hw, norml2_e1, inv_one, one_smul, List.nil_append]
    have hw2 : orthogonalizeColumn OrthogType.MGS [![(1 : ℝ), 0]] ![0, 1]
        = ![(0 : ℝ), 1] := by
      show orthogMGS [![(1 : ℝ), 0]] ![0, 1] = ![(0 : ℝ), 1]
      rw [orthogMGS, List.foldl_cons, List.foldl_nil, dotg_pair,
        show (1 * 0 + 0 * 1 : ℝ) = 0 by norm_num, zero_smul, sub_zero]
    rw [hbar, hw2, dotg_pair]
    norm_num

/-- Witness for the amended C1 at a concrete nondegenerate insertion: one
`UpdatePROM` call with real part `[1,0]` and imaginary part `[0,1]` (MGS)
yields a basis of unit-norm, pairwise-orthogonal vectors. -/
theorem c1_orthonormal_invariant_witness :
    (∀ v ∈ updatePROMBasis OrthogType.MGS ([] : List (Vec 2)) ![1, 0] ![0, 1],
      dotg v v = 1) ∧
    ((updatePROMBasis OrthogType.MGS ([] : List (Vec 2)) ![1, 0] ![0, 1]).Pairwise
      fun a b => dotg a b = 0) :=
  ⟨(c1_orthonormal_invariant OrthogType.MGS _
      (ReachableBasis.step [] ![1, 0] ![0, 1] ReachableBasis.nil goodStep_mixed)).1,
    (c1_orthonormal_invariant OrthogType.MGS _
      (ReachableBasis.step [] ![1, 0] ![0, 1] ReachableBasis.nil goodStep_mixed)).2.1⟩

open Classical in
/-- The basis always grows by exactly `has_real + has_imag`, independent of
any linear dependence of the candidate on the current basis. -/
lemma length_updatePROMBasis {N : ℕ} (t : OrthogType) (V : List (Vec N))
    (ure uim : Vec N) :
    (updatePROMBasis t V ure uim).length =
      V.length + (if hasRealPart ure uim then 1 else 0) +
        (if hasImagPart ure uim then 1 else 0) := by
  rw [updatePROMBasis, basisAfterReal]
  by_cases hr : hasRealPart ure uim <;> by_cases hi : hasImagPart ure uim <;>
    simp [hr, hi, appendBasis]

open Classical in
/-- Claim C2 amended: `UpdatePROM` performs no post-orthogonalization
rejection.  `dim(V)` grows by exactly `has_real + has_imag`, where the two
flags compare only the pre-orthogonalization norms of the real and
imaginary parts against the combined norm; a linearly dependent candidate
part is appended and normalized all the same (in exact arithmetic the
appended column is the zero vector). -/
theorem c2_amended {N : ℕ} (t : OrthogType) (V : List (Vec N)) (ure uim : Vec N) :
    (updatePROMBasis t V ure uim).length =
      V.length + (if hasRealPart ure uim then 1 else 0) +
        (if hasImagPart ure uim then 1 else 0) :=
  length_updatePROMBasis t V ure uim

/-- Counterexample to claim C2: inserting the scale-duplicate `[2,0]` of
the already-inserted `[1,0]` (zero imaginary parts, MGS scheme) is NOT
rejected: `dim(V)` changes (it grows from 1 to 2). -/
theorem c2_counterexample :
    (updatePROMBasis OrthogType.MGS
        (updatePROMBasis OrthogType.MGS ([] : List (Vec 2)) ![1, 0] 0)
        ![2, 0] 0).length ≠
      (updatePROMBasis OrthogType.MGS ([] : List (Vec 2)) ![1, 0] 0).length := by
  rw [length_updatePROMBasis OrthogType.MGS
      (updatePROMBasis OrthogType.MGS ([] : List (Vec 2)) ![1, 0] 0) ![2, 0] 0,
    if_pos hasReal_u2, if_neg not_hasImag_u2]
  omega

end PalaceRom
